import Mathlib

/-!
Shallow embedding of the attack-orchestration core of the
Model_Inversion_Attack_Box repository: the batch runner
(`src/modelinversion/utils/batch.py`), the console helpers
(`src/modelinversion/utils/io.py`), the compose loss
(`src/modelinversion/attack/losses.py`) and the attacker orchestration
(`src/modelinversion/attack/base.py`).

Python exceptions are modelled with `Except String`; `Option` marks the
failure of a partial operation inside `_gather`.  Tensors are modelled as
one-dimensional lists of rationals, so concatenation along axis 0 is list
append and scalar arithmetic is exact.  Python dicts are insertion-ordered
association lists (`Entries`); tuples are `Fields`.  The mutual inductive
presentation (instead of nesting `List` inside `Val`) keeps every
recursive function structural, so concrete runs reduce definitionally.
-/

namespace MIAB

mutual

/-- Runtime values returned by a function run under `batch_apply`: a 1-D
tensor, Python `None`, a dict, or a tuple / namedtuple / generic sequence
(`gather_map` treats all three sequence kinds with the same `zip`-based
branch). -/
inductive Val where
  | tensor : List ℚ → Val
  | vnone : Val
  | dict : Entries → Val
  | tup : Fields → Val

/-- The insertion-ordered key/value entries of a Python dict value. -/
inductive Entries where
  | nil : Entries
  | cons : String → Val → Entries → Entries

/-- The components of a Python tuple value. -/
inductive Fields where
  | nil : Fields
  | cons : Val → Fields → Fields

end

/-- Number of keys of a dict (`len(d)`). -/
def Entries.length : Entries → Nat
  | .nil => 0
  | .cons _ _ es => es.length + 1

/-- Python `d[k]`: the value at the first matching key, if present. -/
def Entries.lookup : Entries → String → Option Val
  | .nil, _ => none
  | .cons k v es, k' => if k' == k then some v else es.lookup k'

/-- Number of components of a tuple (`len(t)`). -/
def Fields.length : Fields → Nat
  | .nil => 0
  | .cons _ fs => fs.length + 1

/-- The components of a tuple as a plain list. -/
def Fields.toList : Fields → List Val
  | .nil => []
  | .cons v fs => v :: fs.toList

/-- Python `len(v)`: defined on tensors, dicts and tuples; `len(None)`
raises, modelled as `none`. -/
def pyLen : Val → Option Nat
  | .tensor t => some t.length
  | .vnone => none
  | .dict es => some es.length
  | .tup fs => some fs.length

/-- Python `d[k]` for a string key: succeeds only on a dict that holds the
key (a `KeyError` / `TypeError` otherwise is modelled as `none`). -/
def getStr (k : String) : Val → Option Val
  | .dict es => es.lookup k
  | _ => none

/-- View a value as a tensor (`torch.cat` raises on anything else). -/
def asTensor : Val → Option (List ℚ)
  | .tensor t => some t
  | _ => none

/-- View a value as the component list of a tuple for the `zip(*outputs)`
branch of `gather_map`. -/
def asTup : Val → Option (List Val)
  | .tup fs => some fs.toList
  | _ => none

mutual

/-- `gather_map(outputs)` from `batch.py`: the first argument is
`outputs[0]`, which drives the case split; the second is the full
`outputs` list (whose head is that same value).  Tensors are concatenated
along axis 0, `None` stays `None`, dicts are reassembled key by key after
the `len` check, and tuples column by column via `zip(*outputs)`. -/
def gatherMap : Val → List Val → Option Val
  | .tensor _, outs =>
      (outs.mapM asTensor).map (fun ts => Val.tensor ts.flatten)
  | .vnone, _ => some Val.vnone
  | .dict es, outs =>
      match outs.mapM pyLen with
      | none => none
      | some lens =>
          if lens.all (fun n => n == es.length) then
            (gatherEntries es outs).map Val.dict
          else none
  | .tup fs, outs =>
      match outs.mapM asTup with
      | none => none
      | some fss => (gatherFields fs fss).map Val.tup

/-- The dict branch of `gather_map`: iterate the keys of `outputs[0]` and
gather the column `[d[k] for d in outputs]` for each key. -/
def gatherEntries : Entries → List Val → Option Entries
  | .nil, _ => some .nil
  | .cons k v es, outs =>
      match outs.mapM (getStr k) with
      | none => none
      | some col =>
          match gatherMap v col, gatherEntries es outs with
          | some r, some rest => some (.cons k r rest)
          | _, _ => none

/-- The tuple branch of `gather_map`: `zip(*outputs)` truncated at the
shortest member; the first argument is the field list of `outputs[0]` and
the second holds the field lists of every output (the first included). -/
def gatherFields : Fields → List (List Val) → Option Fields
  | .nil, _ => some .nil
  | .cons v vs, allF =>
      if allF.any List.isEmpty then some .nil
      else
        match gatherMap v (allF.map (fun l => l.headD Val.vnone)),
              gatherFields vs (allF.map (fun l => l.drop 1)) with
        | some r, some rest => some (.cons r rest)
        | _, _ => none

end

/-- `_gather(results)` from `batch.py`: `outputs[0]` raises `IndexError`
on an empty result list, modelled as `none`. -/
def pyGather : List Val → Option Val
  | [] => none
  | v :: vs => gatherMap v (v :: vs)

/-- One positional input of `batch_apply`: either an indexable sequence
(its elements drawn from `α`) or an object that supports no `len`. -/
inductive PyInput (α : Type) where
  | list : List α → PyInput α
  | nolen : PyInput α
  deriving DecidableEq

/-- `len(inp)` for a `batch_apply` input. -/
def pyInputLen {α : Type} : PyInput α → Option Nat
  | .list l => some l.length
  | .nolen => none

/-- The Python slice `inp[start:finish]`.  Only ever evaluated on inputs
that passed `_check_valid`, so the `nolen` case is unreachable. -/
def pySlice {α : Type} (start finish : Nat) : PyInput α → List α
  | .list l => (l.take finish).drop start
  | .nolen => []

/-- `_check_valid(inputs)` from `batch.py`: collect `len(inp)` for every
input (raising when one has no `len`), then require all lengths to equal
the first one. -/
def check_valid {α : Type} (inputs : List (PyInput α)) : Except String Unit :=
  if inputs.isEmpty then Except.ok ()
  else
    match inputs.mapM pyInputLen with
    | none => Except.error "some inputs have no attr `len`"
    | some lens =>
        if lens.all (fun n => n == lens.headD 0) then Except.ok ()
        else Except.error "lengths of all inputs are not the same"

/-- `batch_apply(fn, *inputs, batch_size=...)` from `batch.py`.  The
chunk starts are `range(0, total_len, batch_size)` and each chunk applies
`fn` to the slices `[p[start:end] for p in inputs]`; the per-chunk
results are reassembled by `_gather`.  The optional progress printing
(`description` / `use_tqdm`) only writes to the console and is omitted.
`end` is a Lean keyword, hence `finish`. -/
def batch_apply {α : Type} (fn : List (List α) → Except String Val)
    (inputs : List (PyInput α)) (batch_size : Nat) : Except String Val :=
  match check_valid inputs with
  | Except.error e => Except.error e
  | Except.ok _ =>
    match inputs.head? with
    | none => Except.error "IndexError: tuple index out of range"
    | some firstInput =>
      match pyInputLen firstInput with
      | none => Except.error "TypeError: object has no len"
      | some total_len =>
        if batch_size = 0 then
          Except.error "ValueError: range arg 3 must not be zero"
        else
          let starts := List.range' 0 ((total_len + batch_size - 1) / batch_size) batch_size
          match starts.mapM (fun start =>
              let finish := min total_len (start + batch_size)
              fn (inputs.map (pySlice start finish))) with
          | Except.error e => Except.error e
          | Except.ok results =>
            match pyGather results with
            | some v => Except.ok v
            | none => Except.error "gather failed on the per-chunk results"

/-! ### `utils/io.py` -/

/-- A run of `n` dashes. -/
def dashLine (n : Nat) : String := String.mk (List.replicate n '-')

/-- `print_split_line(content, length)` from `io.py`, returning the lines
printed so far and the outcome.  When `content` is `None` the code prints
the bare dash line but then falls through (there is no `return` and no
`else`) to `len(content)`, which raises `TypeError`. -/
def print_split_line (content : Option String) (length : Nat) :
    List String × Except String Unit :=
  match content with
  | none =>
      ([dashLine length], Except.error "TypeError: object of type NoneType has no len")
  | some s =>
      let length := if s.length > length - 4 then s.length + 4 else length
      let total_num := length - s.length - 2
      let left_num := total_num / 2
      let right_num := total_num - left_num
      ([dashLine left_num ++ " " ++ s ++ " " ++ dashLine right_num], Except.ok ())

/-- Insertion into an insertion-ordered dict of named scalars: an existing
key keeps its position and gets the new value, a new key is appended. -/
def odInsert (d : List (String × ℚ)) (k : String) (v : ℚ) : List (String × ℚ) :=
  if d.any (fun p => p.1 == k) then d.map (fun p => if p.1 == k then (k, v) else p)
  else d ++ [(k, v)]

/-- `yaml.dump` of a flat ordered mapping of named scalars, as printed by
`print_as_yaml` from `io.py` (one `key: value` line per entry). -/
def print_as_yaml (d : List (String × ℚ)) : String :=
  String.intercalate "\n" (d.map (fun kv => kv.1 ++ ": " ++ toString kv.2))

/-! ### `attack/losses.py` (`ComposeImageLoss`) -/

/-- What a sub-loss call returns: either a bare scalar tensor, or a pair
of the scalar and a diagnostic mapping (`forward` unpacks the pair only
when the result is not a `Tensor`). -/
inductive LossOutput where
  | scalar : ℚ → LossOutput
  | withDict : ℚ → List (String × ℚ) → LossOutput

/-- The scalar component of a sub-loss result. -/
def LossOutput.val : LossOutput → ℚ
  | .scalar v => v
  | .withDict v _ => v

/-- The diagnostic entries of a sub-loss result (empty for a bare
tensor). -/
def LossOutput.entries : LossOutput → List (String × ℚ)
  | .scalar _ => []
  | .withDict _ d => d

/-- The state held by a constructed `ComposeImageLoss`: the ordered
sub-losses and their weights.  Image and label batches are opaque
parameters `ι` and `κ`. -/
structure ComposeImageLoss (ι κ : Type) where
  losses : List (ι → κ → LossOutput)
  weights : List ℚ

/-- `ComposeImageLoss.__init__`: default the weights to `[1] * len(losses)`,
reject an empty loss list and mismatched lengths. -/
def ComposeImageLoss.create {ι κ : Type} (losses : List (ι → κ → LossOutput))
    (weights : Option (List ℚ)) : Except String (ComposeImageLoss ι κ) :=
  let weights := weights.getD (List.replicate losses.length 1)
  if losses.length = 0 then
    Except.error "losses should be at least one function."
  else if weights.length ≠ losses.length then
    Except.error "Expect the equal length of losses and weights."
  else Except.ok ⟨losses, weights⟩

/-- One iteration of the `forward` loop of `ComposeImageLoss`: add
`weight * loss` to the running compose total and merge the sub-loss dict
into the running return dict. -/
def composeStep {ι κ : Type} (images : ι) (labels : κ)
    (acc : ℚ × List (String × ℚ)) (fw : (ι → κ → LossOutput) × ℚ) :
    ℚ × List (String × ℚ) :=
  let res := fw.1 images labels
  (acc.1 + fw.2 * res.val, res.entries.foldl (fun d kv => odInsert d kv.1 kv.2) acc.2)

/-- `ComposeImageLoss.forward(images, labels)`: iterate `zip(losses,
weights)`, accumulate `weight * loss` into the compose total and merge
each sub-loss dict into the return dict, which starts as
`{'compose loss': 0}` and is updated to the final total at the end. -/
def ComposeImageLoss.forward {ι κ : Type} (c : ComposeImageLoss ι κ)
    (images : ι) (labels : κ) : ℚ × List (String × ℚ) :=
  let acc := (c.losses.zip c.weights).foldl (composeStep images labels)
    (0, [("compose loss", 0)])
  (acc.1, odInsert acc.2 "compose loss" acc.1)

/-! ### `attack/base.py` -/

/-- `ImageClassifierAttackConfig`.  Latents, images and labels are all
batches of rationals; the callable fields are `Option`s because the
dataclass defaults them to `None`. -/
structure ImageClassifierAttackConfig where
  sample_latents_fn : Option (Nat → List ℚ)
  initial_num : Option Nat
  initial_latents_score_fn : Option (List ℚ → List ℚ → Val)
  initial_select_batch_size : Option Nat
  optimize_num : Option Nat
  optimize_batch_size : Nat
  optimize_fn : Option (List ℚ → List ℚ → List ℚ × List ℚ)
  final_num : Option Nat
  final_images_score_fn : Option (List ℚ → List ℚ → Val)
  final_select_batch_size : Option Nat
  save_dir : Option String
  save_optimized_images : Bool
  save_final_images : Bool
  save_normalize : Bool

/-- Python truthiness of `not config.save_dir`: `None` and the empty
string are both falsy. -/
def strFalsy : Option String → Bool
  | none => true
  | some s => s.isEmpty

/-- `ImageClassifierAttacker._preprocess_config`, run during
construction: raise on a save flag without `save_dir`, on a missing
sampler / optimizer / `final_num`; then default `initial_num` and
`optimize_num` to `final_num`, clamp `optimize_num` up to `final_num` and
`initial_num` up to `optimize_num` (each with a warning), default
`initial_select_batch_size` to `optimize_batch_size`, and re-assign
`final_select_batch_size` to itself (source line 98 assigns the field to
its own value, so a `None` stays `None`).  Returns the updated config and
the warnings emitted. -/
def preprocess_config (config : ImageClassifierAttackConfig) :
    Except String (ImageClassifierAttackConfig × List String) :=
  if (config.save_optimized_images || config.save_final_images) && strFalsy config.save_dir then
    Except.error "`save_dir` is not set"
  else if config.sample_latents_fn.isNone then
    Except.error "`sample_latents_fn` cannot be None"
  else if config.optimize_fn.isNone then
    Except.error "`optimize_fn` cannot be None"
  else
    match config.final_num with
    | none => Except.error "`final_num` cannot be None"
    | some finalNum =>
      let initialNum0 := config.initial_num.getD finalNum
      let optimizeNum0 := config.optimize_num.getD finalNum
      let optimizeNum1 := if finalNum > optimizeNum0 then finalNum else optimizeNum0
      let w1 : List String :=
        if finalNum > optimizeNum0 then
          ["the final number is larger than the optimize number, automatically set the latter to the fronter"]
        else []
      let initialNum1 := if optimizeNum1 > initialNum0 then optimizeNum1 else initialNum0
      let w2 : List String :=
        if optimizeNum1 > initialNum0 then
          ["the optimize number is larger than the initial number, automatically set the latter to the fronter"]
        else []
      let isbs := config.initial_select_batch_size.getD config.optimize_batch_size
      Except.ok ({ config with
                    initial_num := some initialNum1,
                    optimize_num := some optimizeNum1,
                    initial_select_batch_size := some isbs,
                    final_select_batch_size := config.final_select_batch_size },
                 w1 ++ w2)

/-- `ImageClassifierAttacker.initial_latents`.  The source first clamps
`sample_num` up to `select_num`; the branch for a missing score function
(or `sample_num == select_num`) samples `select_num` latents and builds a
dict comprehension but has no `return`, so its result is discarded and
control falls through (source lines 111-116).  The code then re-samples
`sample_num` latents and calls `batch_apply(latent_score_fn, raw_latents,
labels, ...)`; with `latent_score_fn = None` the first chunk application
raises `TypeError`.  Afterwards source line 124 runs
`for i in range(labels)` with `labels` a list, which always raises
`TypeError`, so the function never returns normally. -/
def initial_latents (sample_latents_fn : Nat → List ℚ)
    (batch_size sample_num select_num : Nat) (labels : List ℚ)
    (latent_score_fn : Option (List ℚ → List ℚ → Val)) :
    Except String (List ℚ × List ℚ) :=
  let sample_num := if sample_num < select_num then select_num else sample_num
  let raw_latents := sample_latents_fn sample_num
  let scoreFn : List (List ℚ) → Except String Val :=
    match latent_score_fn with
    | none => fun _ => Except.error "TypeError: NoneType object is not callable"
    | some f => fun slices => Except.ok (f (slices.headD []) (slices.getD 1 []))
  match batch_apply scoreFn [PyInput.list raw_latents, PyInput.list labels] batch_size with
  | Except.error e => Except.error e
  | Except.ok _ =>
      Except.error "TypeError: list object cannot be interpreted as an integer"

/-- `ImageClassifierAttacker.concat_tensor_labels`.  The loop
`for target, latents in target_dict:` iterates the dict itself, yielding
bare keys, so unpacking raises `TypeError` on the first iteration of any
non-empty dict; an empty dict reaches `torch.cat([], dim=0)`, which
raises `RuntimeError`.  (Past the loop, the final statement is
`raise tensors, labels` rather than `return`, a Python 3 syntax error.)
The function therefore never produces a pair. -/
def concat_tensor_labels (target_dict : List (ℚ × List ℚ)) :
    Except String (List ℚ × List ℚ) :=
  match target_dict with
  | [] => Except.error "RuntimeError: torch.cat expected a non-empty list of Tensors"
  | _ :: _ => Except.error "TypeError: cannot unpack non-iterable int object"

/-- What `final_selection` can hand back: the single tensor of the
`return images` statement at source line 155, or an (images, labels)
pair. -/
inductive FinalSelectionResult where
  | single : List ℚ → FinalSelectionResult
  | pair : List ℚ → List ℚ → FinalSelectionResult
  deriving DecidableEq

/-- `ImageClassifierAttacker.final_selection(batch_size, final_num,
images, labels, image_score_fn)`, returning the warnings emitted and the
outcome.  After the length assertion, a missing score function with a
mismatched count warns and sets `final_num = len(images)`; when
`final_num == len(images)` the code runs `return images`, handing back
only the images (no labels).  Otherwise it calls `batch_apply(self,
image_score_fn, images, labels, batch_size=batch_size)`: `self` lands in
the function slot and the score function becomes the first input, which
has no `len`, so `_check_valid` raises; were scoring ever to succeed, the
per-target `topk` path would end in `concat_tensor_labels`, which always
raises. -/
def final_selection (batch_size final_num : Nat) (images labels : List ℚ)
    (image_score_fn : Option (List ℚ → List ℚ → Val)) :
    List String × Except String FinalSelectionResult :=
  if images.length ≠ labels.length then
    ([], Except.error "AssertionError: len images == len labels")
  else
    let warned := (final_num != images.length) && image_score_fn.isNone
    let final_num := if warned then images.length else final_num
    let warnings :=
      if warned then ["no score function but final num is not equal to the number of latents"]
      else []
    if final_num = images.length then
      (warnings, Except.ok (FinalSelectionResult.single images))
    else
      let selfFn : List (List ℚ) → Except String Val :=
        fun _ => Except.error "TypeError: ImageClassifierAttacker object is not callable"
      (warnings,
        match batch_apply selfFn
            [PyInput.nolen, PyInput.list images, PyInput.list labels] batch_size with
        | Except.error msg => Except.error msg
        | Except.ok _ => Except.error "TypeError: cannot unpack non-iterable int object")

/-- `ImageClassifierAttacker._evaluation(images, labels, description)`:
merge every metric's named results into one ordered mapping (later keys
overwrite earlier ones), print the framed description, the yaml report,
and a closing `print_split_line()` whose `content` defaults to `None` —
so the closing separator step raises.  Returns the printed lines and the
outcome. -/
def evaluation {ι κ : Type} (metrics : List (ι → κ → List (String × ℚ)))
    (images : ι) (labels : κ) (description : String) :
    List String × Except String Unit :=
  let result := metrics.foldl
    (fun acc m => (m images labels).foldl (fun d kv => odInsert d kv.1 kv.2) acc) []
  let opening := print_split_line (some description) 60
  let closing := print_split_line none 60
  (opening.1 ++ [print_as_yaml result] ++ closing.1, closing.2)

/-! ### Shape-driven elementwise functions

The batch-invariance property of `batch_apply` cannot hold for an
arbitrary function, but it does hold for any function whose output is a
fixed tensor/dict/tuple/`None` structure in which every tensor leaf maps
each index of the (zipped) inputs independently.  A `Shape` describes
such a function: a tensor leaf carries the per-row scoring map, applied
to each row of the transposed inputs. -/

mutual

/-- The fixed output structure of a shape-driven elementwise function. -/
inductive Shape (α : Type) where
  | stensor : (List α → ℚ) → Shape α
  | snone : Shape α
  | sdict : SEntries α → Shape α
  | stup : SFields α → Shape α

/-- The entries of a dict node of a `Shape`. -/
inductive SEntries (α : Type) where
  | nil : SEntries α
  | cons : String → Shape α → SEntries α → SEntries α

/-- The components of a tuple node of a `Shape`. -/
inductive SFields (α : Type) where
  | nil : SFields α
  | cons : Shape α → SFields α → SFields α

end

/-- Keys of a dict node, in order. -/
def SEntries.keys {α : Type} : SEntries α → List String
  | .nil => []
  | .cons k _ es => k :: es.keys

mutual

/-- A shape is well formed when every dict node has pairwise distinct
keys, as a Python dict always does. -/
def shapeWF {α : Type} : Shape α → Bool
  | .stensor _ => true
  | .snone => true
  | .sdict es => decide es.keys.Nodup && sentriesWF es
  | .stup fs => sfieldsWF fs

/-- Well-formedness of dict entries. -/
def sentriesWF {α : Type} : SEntries α → Bool
  | .nil => true
  | .cons _ s es => shapeWF s && sentriesWF es

/-- Well-formedness of tuple components. -/
def sfieldsWF {α : Type} : SFields α → Bool
  | .nil => true
  | .cons s fs => shapeWF s && sfieldsWF fs

end

/-- The rows of a rectangular list of equal-length inputs: row `i` holds
the `i`-th element of every input (the transpose of the inputs). -/
def rowsOf {α : Type} (inputs : List (List α)) : List (List α) :=
  if h : (inputs.headD []).isEmpty then []
  else inputs.filterMap List.head? :: rowsOf (inputs.map (List.drop 1))
termination_by (inputs.headD []).length
decreasing_by
  cases inputs with
  | nil => simp at h
  | cons x rest =>
      simp only [List.headD_cons, List.isEmpty_iff] at h
      simpa using Nat.sub_lt (List.length_pos.mpr h) Nat.one_pos

mutual

/-- Run a shape-driven elementwise function on a list of equal-length
inputs: every tensor leaf scores each row of the transposed inputs. -/
def shapeApply {α : Type} : Shape α → List (List α) → Val
  | .stensor g, inps => Val.tensor ((rowsOf inps).map g)
  | .snone, _ => Val.vnone
  | .sdict es, inps => Val.dict (shapeEntriesApply es inps)
  | .stup fs, inps => Val.tup (shapeFieldsApply fs inps)

/-- `shapeApply` on the entries of a dict node. -/
def shapeEntriesApply {α : Type} : SEntries α → List (List α) → Entries
  | .nil, _ => .nil
  | .cons k s es, inps => .cons k (shapeApply s inps) (shapeEntriesApply es inps)

/-- `shapeApply` on the components of a tuple node. -/
def shapeFieldsApply {α : Type} : SFields α → List (List α) → Fields
  | .nil, _ => .nil
  | .cons s fs, inps => .cons (shapeApply s inps) (shapeFieldsApply fs inps)

end

/-- Concatenate two chunk-slicings input by input. -/
def zipConcat {α : Type} (a b : List (List α)) : List (List α) :=
  List.zipWith (fun x y => x ++ y) a b

/-- Concatenate a list of chunk-slicings input by input. -/
def hconcat {α : Type} : List (List (List α)) → List (List α)
  | [] => []
  | p :: ps => ps.foldl zipConcat p

/-- All members of one chunk-slicing have the same length. -/
def PieceAligned {α : Type} (p : List (List α)) : Prop :=
  ∀ l ∈ p, l.length = (p.headD []).length

/-- The contiguous chunk-slicings of size `B` of a rectangular input
list, in order. -/
def chunksOf {α : Type} (B : Nat) (inputs : List (List α)) :
    List (List (List α)) :=
  if h : B = 0 ∨ (inputs.headD []).isEmpty then []
  else (inputs.map (List.take B)) :: chunksOf B (inputs.map (List.drop B))
termination_by (inputs.headD []).length
decreasing_by
  rw [not_or] at h
  obtain ⟨hB, hne⟩ := h
  cases inputs with
  | nil => simp at hne
  | cons x rest =>
      simp only [List.headD_cons, List.isEmpty_iff] at hne
      simpa using Nat.sub_lt (List.length_pos.mpr hne) (Nat.pos_of_ne_zero hB)

/-- The shape stored under a key of a dict node (first occurrence). -/
def SEntries.findShape {α : Type} : SEntries α → String → Option (Shape α)
  | .nil, _ => none
  | .cons k s es, k' => if k' == k then some s else es.findShape k'

/-- A non-empty family of chunk-slicings that agree on the number of
inputs, each internally rectangular. -/
def GoodPieces {α : Type} (p₀ : List (List α)) (ps : List (List (List α))) : Prop :=
  (∀ q ∈ ps, q.length = p₀.length) ∧ PieceAligned p₀ ∧ ∀ q ∈ ps, PieceAligned q

/-- A fully populated configuration with the count chain
`initial_num=5, optimize_num=10, final_num=20` of the normalization
scenario. -/
def exampleConfig : ImageClassifierAttackConfig where
  sample_latents_fn := some (fun n => List.replicate n 0)
  initial_num := some 5
  initial_latents_score_fn := none
  initial_select_batch_size := none
  optimize_num := some 10
  optimize_batch_size := 5
  optimize_fn := some (fun a b => (a, b))
  final_num := some 20
  final_images_score_fn := none
  final_select_batch_size := none
  save_dir := none
  save_optimized_images := false
  save_final_images := false
  save_normalize := true

/-- `exampleConfig` with image saving requested but no save directory. -/
def exampleBadConfig : ImageClassifierAttackConfig :=
  { exampleConfig with save_optimized_images := true, save_dir := none }

/-- A concrete output shape exercising every reassembly mode of
`_gather`: a dict holding a tensor of per-row scores and a tuple of a
`None` and a second tensor. -/
def exampleShape : Shape ℚ :=
  Shape.sdict (SEntries.cons "scores" (Shape.stensor (fun row => row.headD 0))
    (SEntries.cons "extras"
      (Shape.stup (SFields.cons Shape.snone
        (SFields.cons (Shape.stensor (fun row => row.getD 1 0)) SFields.nil)))
      SEntries.nil))

/-! ## Helper lemmas -/

theorem mapM_except_ok {α β : Type} (f : α → β) :
    ∀ l : List α, l.mapM (fun x => (Except.ok (f x) : Except String β)) = Except.ok (l.map f)
  | [] => rfl
  | x :: xs => by
      rw [List.mapM_cons, mapM_except_ok f xs]; rfl

theorem mapM_option_eq_some {α β : Type} (g : α → Option β) (f : α → β)
    (hg : ∀ x, g x = some (f x)) :
    ∀ l : List α, l.mapM g = some (l.map f)
  | [] => rfl
  | x :: xs => by
      rw [List.mapM_cons, hg x, mapM_option_eq_some g f hg xs]; rfl

theorem zipConcat_cons_cons {α : Type} (a b : List α) (A B : List (List α)) :
    zipConcat (a :: A) (b :: B) = (a ++ b) :: zipConcat A B := rfl

theorem length_zipConcat {α : Type} (A B : List (List α)) :
    (zipConcat A B).length = min A.length B.length :=
  List.length_zipWith _ _ _

theorem mem_zipConcat {α : Type} :
    ∀ {A B : List (List α)} {l : List α}, l ∈ zipConcat A B →
      ∃ x ∈ A, ∃ y ∈ B, l = x ++ y := by
  intro A
  induction A with
  | nil => intro B l h; simp [zipConcat] at h
  | cons a A ih =>
      intro B l h
      cases B with
      | nil => simp [zipConcat] at h
      | cons b B =>
          rw [zipConcat_cons_cons, List.mem_cons] at h
          rcases h with h | h
          · exact ⟨a, by simp, b, by simp, h⟩
          · obtain ⟨x, hx, y, hy, hl⟩ := ih h
            exact ⟨x, by simp [hx], y, by simp [hy], hl⟩

theorem zipConcat_assoc {α : Type} :
    ∀ A B C : List (List α), zipConcat (zipConcat A B) C = zipConcat A (zipConcat B C)
  | [], _, _ => rfl
  | _ :: _, [], _ => rfl
  | _ :: _, _ :: _, [] => rfl
  | a :: A, b :: B, c :: C => by
      simp only [zipConcat_cons_cons, List.append_assoc, List.cons.injEq, true_and]
      exact zipConcat_assoc A B C

theorem foldl_zipConcat {α : Type} :
    ∀ (l : List (List (List α))) (a b : List (List α)),
      l.foldl zipConcat (zipConcat a b) = zipConcat a (l.foldl zipConcat b)
  | [], _, _ => rfl
  | q :: l, a, b => by
      simp only [List.foldl_cons]
      rw [zipConcat_assoc, foldl_zipConcat l]

theorem hconcat_cons_cons {α : Type} (p q : List (List α)) (ps : List (List (List α))) :
    hconcat (p :: q :: ps) = zipConcat p (hconcat (q :: ps)) := by
  simp only [hconcat, List.foldl_cons]
  exact foldl_zipConcat ps p q

theorem pieceAligned_len {α : Type} {a : List α} {A : List (List α)}
    (h : PieceAligned (a :: A)) {x : List α} (hx : x ∈ a :: A) :
    x.length = a.length := by
  simpa using h x hx

theorem pieceAligned_map_drop {α : Type} (n : Nat) {A : List (List α)}
    (h : PieceAligned A) : PieceAligned (A.map (List.drop n)) := by
  cases A with
  | nil => intro l hl; simp at hl
  | cons a A =>
      intro l hl
      simp only [List.map_cons, List.headD_cons, List.mem_cons, List.mem_map] at hl ⊢
      rcases hl with rfl | ⟨x, hx, rfl⟩
      · rfl
      · have := pieceAligned_len h (List.mem_cons_of_mem a hx)
        simp [List.length_drop, this]

theorem pieceAligned_map_take {α : Type} (n : Nat) {A : List (List α)}
    (h : PieceAligned A) : PieceAligned (A.map (List.take n)) := by
  cases A with
  | nil => intro l hl; simp at hl
  | cons a A =>
      intro l hl
      simp only [List.map_cons, List.headD_cons, List.mem_cons, List.mem_map] at hl ⊢
      rcases hl with rfl | ⟨x, hx, rfl⟩
      · rfl
      · have := pieceAligned_len h (List.mem_cons_of_mem a hx)
        simp [List.length_take, this]

theorem pieceAligned_zipConcat {α : Type} {A B : List (List α)}
    (hA : PieceAligned A) (hB : PieceAligned B) (hlen : A.length = B.length) :
    PieceAligned (zipConcat A B) := by
  cases A with
  | nil => intro l hl; simp [zipConcat] at hl
  | cons a A =>
      cases B with
      | nil => simp at hlen
      | cons b B =>
          intro l hl
          rw [zipConcat_cons_cons] at hl ⊢
          simp only [List.headD_cons]
          rcases List.mem_cons.mp hl with rfl | hl
          · rfl
          · obtain ⟨x, hx, y, hy, rfl⟩ := mem_zipConcat hl
            have h1 := pieceAligned_len hA (List.mem_cons_of_mem a hx)
            have h2 := pieceAligned_len hB (List.mem_cons_of_mem b hy)
            simp [h1, h2]

theorem zipConcat_eq_right {α : Type} :
    ∀ {A B : List (List α)}, (∀ x ∈ A, x = []) → A.length = B.length →
      zipConcat A B = B
  | [], [], _, _ => rfl
  | [], _ :: _, _, hlen => by simp at hlen
  | _ :: _, [], _, hlen => by simp at hlen
  | a :: A, b :: B, hnil, hlen => by
      rw [zipConcat_cons_cons, hnil a (by simp), List.nil_append]
      rw [zipConcat_eq_right (fun x hx => hnil x (by simp [hx])) (by simpa using hlen)]

theorem filterMap_head_zipConcat {α : Type} :
    ∀ {A B : List (List α)}, (∀ x ∈ A, x ≠ []) → A.length = B.length →
      (zipConcat A B).filterMap List.head? = A.filterMap List.head?
  | [], [], _, _ => rfl
  | [], _ :: _, _, hlen => by simp at hlen
  | _ :: _, [], _, hlen => by simp at hlen
  | a :: A, b :: B, hne, hlen => by
      rw [zipConcat_cons_cons]
      have ha : a ≠ [] := hne a (by simp)
      obtain ⟨x, t, rfl⟩ := List.exists_cons_of_ne_nil ha
      simp only [List.cons_append, List.filterMap_cons, List.head?_cons]
      rw [filterMap_head_zipConcat (fun x hx => hne x (by simp [hx])) (by simpa using hlen)]

theorem map_drop_one_zipConcat {α : Type} :
    ∀ {A B : List (List α)}, (∀ x ∈ A, x ≠ []) → A.length = B.length →
      (zipConcat A B).map (List.drop 1) = zipConcat (A.map (List.drop 1)) B
  | [], [], _, _ => rfl
  | [], _ :: _, _, hlen => by simp at hlen
  | _ :: _, [], _, hlen => by simp at hlen
  | a :: A, b :: B, hne, hlen => by
      have ha : a ≠ [] := hne a (by simp)
      obtain ⟨x, t, rfl⟩ := List.exists_cons_of_ne_nil ha
      simp only [zipConcat_cons_cons, List.map_cons, List.cons_append, List.drop_succ_cons,
        List.drop_zero]
      rw [map_drop_one_zipConcat (fun x hx => hne x (by simp [hx])) (by simpa using hlen)]

theorem rowsOf_of_isEmpty {α : Type} {inputs : List (List α)}
    (h : (inputs.headD []).isEmpty) : rowsOf inputs = [] := by
  rw [rowsOf]; exact dif_pos h

theorem rowsOf_of_ne {α : Type} {inputs : List (List α)}
    (h : ¬ (inputs.headD []).isEmpty) :
    rowsOf inputs = inputs.filterMap List.head? :: rowsOf (inputs.map (List.drop 1)) := by
  rw [rowsOf]; exact dif_neg h

theorem rowsOf_zipConcat_aux {α : Type} :
    ∀ (n : Nat) (A B : List (List α)), (A.headD []).length = n →
      PieceAligned A → PieceAligned B → A.length = B.length →
      rowsOf (zipConcat A B) = rowsOf A ++ rowsOf B := by
  intro n
  induction n using Nat.strong_induction_on with
  | _ n ih =>
  intro A B hn hA hB hlen
  cases A with
  | nil =>
      cases B with
      | nil =>
          have h0 : rowsOf ([] : List (List α)) = [] := rowsOf_of_isEmpty (by simp)
          show rowsOf ([] : List (List α)) = _
          simp [h0]
      | cons b B => simp at hlen
  | cons a A =>
      cases B with
      | nil => simp at hlen
      | cons b B =>
          by_cases ha : a.isEmpty
          · have hnil : ∀ x ∈ a :: A, x = [] := by
              intro x hx
              have := pieceAligned_len hA hx
              rw [List.isEmpty_iff.mp ha] at this
              exact List.eq_nil_of_length_eq_zero this
            rw [zipConcat_eq_right hnil hlen,
              @rowsOf_of_isEmpty α (a :: A) (by simpa using ha), List.nil_append]
          · have hane : a ≠ [] := fun h0 => ha (List.isEmpty_iff.mpr h0)
            have hne : ∀ x ∈ a :: A, x ≠ [] := by
              intro x hx h0
              apply hane
              apply List.eq_nil_of_length_eq_zero
              have hLx := pieceAligned_len hA hx
              rw [h0] at hLx
              simpa using hLx.symm
            have hcne : ¬ ((zipConcat (a :: A) (b :: B)).headD []).isEmpty := by
              rw [zipConcat_cons_cons, List.headD_cons, List.isEmpty_iff]
              simp [hane]
            have hacne : ¬ (((a :: A) : List (List α)).headD []).isEmpty := by
              rw [List.headD_cons]
              exact fun h => hane (List.isEmpty_iff.mp h)
            rw [rowsOf_of_ne hcne, rowsOf_of_ne hacne,
              filterMap_head_zipConcat hne hlen, map_drop_one_zipConcat hne hlen]
            have hpos : 0 < a.length := List.length_pos.mpr hane
            rw [ih (a.length - 1)
              (by simp only [List.headD_cons] at hn; omega) ((a :: A).map (List.drop 1)) (b :: B)
              (by simp) (pieceAligned_map_drop 1 hA) hB (by simpa using hlen)]
            simp

theorem rowsOf_zipConcat {α : Type} (A B : List (List α))
    (hA : PieceAligned A) (hB : PieceAligned B) (hlen : A.length = B.length) :
    rowsOf (zipConcat A B) = rowsOf A ++ rowsOf B :=
  rowsOf_zipConcat_aux ((A.headD []).length) A B rfl hA hB hlen

theorem aligned_of_const_len {α : Type} {inputs : List (List α)} {L : Nat}
    (hal : ∀ l ∈ inputs, l.length = L) : PieceAligned inputs := by
  cases inputs with
  | nil => intro l hl; simp at hl
  | cons x rest =>
      intro l hl
      rw [List.headD_cons, hal l hl, hal x (List.mem_cons_self x rest)]

theorem hconcat_length {α : Type} :
    ∀ (p : List (List α)) (ps : List (List (List α))),
      (∀ q ∈ ps, q.length = p.length) → (hconcat (p :: ps)).length = p.length
  | _, [], _ => rfl
  | p, q :: ps, hc => by
      have hq : q.length = p.length := hc q (by simp)
      have hrest : ∀ r ∈ ps, r.length = q.length := by
        intro r hr
        rw [hc r (List.mem_cons_of_mem q hr), hq]
      rw [hconcat_cons_cons, length_zipConcat, hconcat_length q ps hrest, hq]
      simp

theorem hconcat_aligned {α : Type} :
    ∀ (p : List (List α)) (ps : List (List (List α))),
      GoodPieces p ps → PieceAligned (hconcat (p :: ps))
  | _, [], h => h.2.1
  | p, q :: ps, h => by
      obtain ⟨hc, hp, hqs⟩ := h
      have hq : q.length = p.length := hc q (by simp)
      have hrest : ∀ r ∈ ps, r.length = q.length := by
        intro r hr
        rw [hc r (List.mem_cons_of_mem q hr), hq]
      have hGood : GoodPieces q ps :=
        ⟨hrest, hqs q (by simp), fun r hr => hqs r (List.mem_cons_of_mem q hr)⟩
      rw [hconcat_cons_cons]
      exact pieceAligned_zipConcat hp (hconcat_aligned q ps hGood)
        (by rw [hconcat_length q ps hrest, hq])

theorem rows_hconcat {α : Type} :
    ∀ (p : List (List α)) (ps : List (List (List α))),
      GoodPieces p ps → rowsOf (hconcat (p :: ps)) = ((p :: ps).map rowsOf).flatten
  | p, [], _ => by
      show rowsOf p = _
      simp
  | p, q :: ps, h => by
      obtain ⟨hc, hp, hqs⟩ := h
      have hq : q.length = p.length := hc q (by simp)
      have hrest : ∀ r ∈ ps, r.length = q.length := by
        intro r hr
        rw [hc r (List.mem_cons_of_mem q hr), hq]
      have hGood : GoodPieces q ps :=
        ⟨hrest, hqs q (by simp), fun r hr => hqs r (List.mem_cons_of_mem q hr)⟩
      rw [hconcat_cons_cons,
        rowsOf_zipConcat p (hconcat (q :: ps)) hp (hconcat_aligned q ps hGood)
          (by rw [hconcat_length q ps hrest, hq]),
        rows_hconcat q ps hGood]
      simp

theorem chunksOf_eq_nil {α : Type} {B : Nat} {inputs : List (List α)}
    (h : B = 0 ∨ (inputs.headD []).isEmpty) : chunksOf B inputs = [] := by
  rw [chunksOf]; exact dif_pos h

theorem chunksOf_eq_cons {α : Type} {B : Nat} {inputs : List (List α)}
    (h : ¬ (B = 0 ∨ (inputs.headD []).isEmpty)) :
    chunksOf B inputs =
      (inputs.map (List.take B)) :: chunksOf B (inputs.map (List.drop B)) := by
  rw [chunksOf]; exact dif_neg h

theorem zipConcat_map_take_drop {α : Type} (B : Nat) :
    ∀ l : List (List α), zipConcat (l.map (List.take B)) (l.map (List.drop B)) = l
  | [] => rfl
  | x :: rest => by
      rw [List.map_cons, List.map_cons, zipConcat_cons_cons, List.take_append_drop,
        zipConcat_map_take_drop B rest]

theorem chunksOf_shape_aux {α : Type} :
    ∀ (n B L : Nat) (inputs : List (List α)), L = n →
      (∀ l ∈ inputs, l.length = L) →
      ∀ q ∈ chunksOf B inputs, q.length = inputs.length ∧ PieceAligned q := by
  intro n
  induction n using Nat.strong_induction_on with
  | _ n ih =>
  intro B L inputs hLn hal q hq
  by_cases hstop : B = 0 ∨ (inputs.headD []).isEmpty
  · rw [chunksOf_eq_nil hstop] at hq
    simp at hq
  · rw [chunksOf_eq_cons hstop] at hq
    obtain ⟨hB0, hne⟩ := not_or.mp hstop
    have hL1 : 0 < L := by
      cases inputs with
      | nil => simp at hne
      | cons x rest =>
          rw [List.headD_cons, List.isEmpty_iff] at hne
          rw [← hal x (by simp)]
          exact List.length_pos.mpr hne
    rcases List.mem_cons.mp hq with rfl | hq'
    · refine ⟨by simp, pieceAligned_map_take B (aligned_of_const_len hal)⟩
    · have hal' : ∀ l ∈ inputs.map (List.drop B), l.length = L - B := by
        intro l hl
        obtain ⟨x, hx, rfl⟩ := List.mem_map.mp hl
        simp [hal x hx]
      have := ih (L - B) (by omega) B (L - B) (inputs.map (List.drop B)) rfl hal' q hq'
      simpa using this

theorem chunksOf_shape {α : Type} (B L : Nat) (inputs : List (List α))
    (hal : ∀ l ∈ inputs, l.length = L) :
    ∀ q ∈ chunksOf B inputs, q.length = inputs.length ∧ PieceAligned q :=
  chunksOf_shape_aux L B L inputs rfl hal

theorem hconcat_chunksOf_aux {α : Type} :
    ∀ (n B L : Nat) (inputs : List (List α)), L = n → 0 < B → 0 < L →
      inputs ≠ [] → (∀ l ∈ inputs, l.length = L) →
      hconcat (chunksOf B inputs) = inputs := by
  intro n
  induction n using Nat.strong_induction_on with
  | _ n ih =>
  intro B L inputs hLn hB hL hne hal
  obtain ⟨x, rest, rfl⟩ := List.exists_cons_of_ne_nil hne
  have hxlen : x.length = L := hal x (by simp)
  have hxne : x ≠ [] := by
    intro h0
    rw [h0] at hxlen
    simp at hxlen
    omega
  have hstop : ¬ (B = 0 ∨ (((x :: rest) : List (List α)).headD []).isEmpty) := by
    rw [List.headD_cons, not_or, List.isEmpty_iff]
    exact ⟨by omega, hxne⟩
  rw [chunksOf_eq_cons hstop]
  by_cases hLB : L ≤ B
  · have htake : ∀ l ∈ x :: rest, List.take B l = l := fun l hl =>
      List.take_of_length_le (by rw [hal l hl]; exact hLB)
    have hdropnil : chunksOf B ((x :: rest).map (List.drop B)) = [] := by
      apply chunksOf_eq_nil
      right
      simp only [List.map_cons, List.headD_cons]
      rw [List.drop_of_length_le (by rw [hxlen]; exact hLB)]
      rfl
    rw [hdropnil]
    show (x :: rest).map (List.take B) = x :: rest
    rw [List.map_congr_left htake]
    simp
  · push_neg at hLB
    have hal' : ∀ l ∈ (x :: rest).map (List.drop B), l.length = L - B := by
      intro l hl
      obtain ⟨y, hy, rfl⟩ := List.mem_map.mp hl
      simp [hal y hy]
    have hrec := ih (L - B) (by omega) B (L - B) ((x :: rest).map (List.drop B)) rfl hB
      (by omega) (by simp) hal'
    have hstop' : ¬ (B = 0 ∨ ((((x :: rest).map (List.drop B))).headD []).isEmpty) := by
      simp only [List.map_cons, List.headD_cons, not_or, List.isEmpty_iff]
      refine ⟨by omega, ?_⟩
      intro h0
      have := congrArg List.length h0
      simp [hxlen] at this
      omega
    have hcons := chunksOf_eq_cons hstop'
    rw [hcons, hconcat_cons_cons, ← hcons, hrec]
    exact zipConcat_map_take_drop B (x :: rest)

theorem hconcat_chunksOf {α : Type} (B L : Nat) (inputs : List (List α))
    (hB : 0 < B) (hL : 0 < L) (hne : inputs ≠ [])
    (hal : ∀ l ∈ inputs, l.length = L) :
    hconcat (chunksOf B inputs) = inputs :=
  hconcat_chunksOf_aux L B L inputs rfl hB hL hne hal

theorem range'_add_shift :
    ∀ (n s d step : Nat), List.range' (s + d) n step = (List.range' s n step).map (· + d)
  | 0, _, _, _ => rfl
  | n + 1, s, d, step => by
      rw [List.range'_succ, List.range'_succ, List.map_cons,
        show s + d + step = (s + step) + d by omega,
        range'_add_shift n (s + step) d step]

theorem slice_shift {α : Type} (l : List α) (L B s : Nat) (hBL : B < L) :
    (l.take (min L (s + B + B))).drop (s + B)
      = (((l.drop B).take (min (L - B) (s + B))).drop s) := by
  rw [List.drop_take, List.drop_take, List.drop_drop]
  rw [show B + s = s + B by omega]
  congr 1
  omega

theorem slices_eq_chunksOf_aux {α : Type} :
    ∀ (n B L : Nat) (inputs : List (List α)), L = n → 0 < B → inputs ≠ [] →
      (∀ l ∈ inputs, l.length = L) →
      (List.range' 0 ((L + B - 1) / B) B).map
        (fun s => inputs.map (fun l => (l.take (min L (s + B))).drop s))
      = chunksOf B inputs := by
  intro n
  induction n using Nat.strong_induction_on with
  | _ n ih =>
  intro B L inputs hLn hB hne hal
  obtain ⟨x, rest, rfl⟩ := List.exists_cons_of_ne_nil hne
  have hxlen : x.length = L := hal x (by simp)
  by_cases hL0 : L = 0
  · have hcnt : (L + B - 1) / B = 0 := Nat.div_eq_of_lt (by omega)
    rw [hcnt]
    rw [chunksOf_eq_nil (Or.inr (by
      rw [List.headD_cons, List.isEmpty_iff]
      apply List.eq_nil_of_length_eq_zero
      omega))]
    rfl
  · have hL : 0 < L := by omega
    have hxne : x ≠ [] := by
      intro h0
      rw [h0] at hxlen
      simp at hxlen
      omega
    have hstop : ¬ (B = 0 ∨ (((x :: rest) : List (List α)).headD []).isEmpty) := by
      rw [List.headD_cons, not_or, List.isEmpty_iff]
      exact ⟨by omega, hxne⟩
    have hcount : (L + B - 1) / B = (L - 1) / B + 1 := by
      rw [show L + B - 1 = (L - 1) + B by omega, Nat.add_div_right _ hB]
    rw [hcount, List.range'_succ, List.map_cons, chunksOf_eq_cons hstop]
    by_cases hLB : L ≤ B
    · have h1 : (L - 1) / B = 0 := Nat.div_eq_of_lt (by omega)
      rw [h1]
      have hhead : (x :: rest).map (fun l => (l.take (min L (0 + B))).drop 0)
          = (x :: rest).map (List.take B) := by
        apply List.map_congr_left
        intro l hl
        rw [Nat.zero_add, List.drop_zero, min_eq_left hLB, List.take_of_length_le (by rw [hal l hl]),
          List.take_of_length_le (by rw [hal l hl]; exact hLB)]
      have hdropnil : chunksOf B ((x :: rest).map (List.drop B)) = [] := by
        apply chunksOf_eq_nil
        right
        simp only [List.map_cons, List.headD_cons]
        rw [List.drop_of_length_le (by rw [hxlen]; exact hLB)]
        rfl
      rw [hhead, hdropnil]
      rfl
    · push_neg at hLB
      have hhead : (x :: rest).map (fun l => (l.take (min L (0 + B))).drop 0)
          = (x :: rest).map (List.take B) := by
        apply List.map_congr_left
        intro l hl
        rw [Nat.zero_add, List.drop_zero, min_eq_right (le_of_lt hLB)]
      rw [hhead]
      have hal' : ∀ l ∈ (x :: rest).map (List.drop B), l.length = L - B := by
        intro l hl
        obtain ⟨y, hy, rfl⟩ := List.mem_map.mp hl
        simp [hal y hy]
      have hm : (L - B + B - 1) / B = (L - 1) / B := by
        rw [show L - B + B - 1 = (L - B - 1) + B by omega, Nat.add_div_right _ hB,
          show L - 1 = (L - 1 - B) + B by omega, Nat.add_div_right _ hB,
          show L - 1 - B = L - B - 1 by omega]
      have hIH := ih (L - B) (by omega) B (L - B) ((x :: rest).map (List.drop B)) rfl hB
        (by simp) hal'
      rw [hm] at hIH
      rw [range'_add_shift ((L - 1) / B) 0 B B, List.map_map]
      have hfun : ∀ s ∈ List.range' 0 ((L - 1) / B) B,
          ((fun s => (x :: rest).map (fun l => (l.take (min L (s + B))).drop s)) ∘ (· + B)) s
          = ((x :: rest).map (List.drop B)).map
              (fun l => (l.take (min (L - B) (s + B))).drop s) := by
        intro s _
        simp only [Function.comp, List.map_map]
        apply List.map_congr_left
        intro l hl
        have := slice_shift l L B s hLB
        simpa using this
      rw [List.map_congr_left hfun]
      exact congrArg _ hIH

theorem slices_eq_chunksOf {α : Type} (B L : Nat) (inputs : List (List α))
    (hB : 0 < B) (hne : inputs ≠ []) (hal : ∀ l ∈ inputs, l.length = L) :
    (List.range' 0 ((L + B - 1) / B) B).map
      (fun s => inputs.map (fun l => (l.take (min L (s + B))).drop s))
    = chunksOf B inputs :=
  slices_eq_chunksOf_aux L B L inputs rfl hB hne hal

theorem mapM_option_map {α β γ : Type} (h : α → β) (g : β → Option γ) (f : α → γ) :
    ∀ l : List α, (∀ x ∈ l, g (h x) = some (f x)) → (l.map h).mapM g = some (l.map f)
  | [], _ => rfl
  | x :: xs, hp => by
      rw [List.map_cons, List.mapM_cons, hp x (by simp),
        mapM_option_map h g f xs (fun y hy => hp y (List.mem_cons_of_mem x hy))]
      rfl

theorem shapeEntriesApply_length {α : Type} :
    ∀ (es : SEntries α) (p : List (List α)),
      (shapeEntriesApply es p).length = es.keys.length
  | .nil, _ => rfl
  | .cons k s es, p => by
      simp [shapeEntriesApply, Entries.length, SEntries.keys, shapeEntriesApply_length es p]

theorem lookup_shapeEntriesApply {α : Type} :
    ∀ (es : SEntries α) (p : List (List α)) (k : String),
      (shapeEntriesApply es p).lookup k = (es.findShape k).map (fun s => shapeApply s p)
  | .nil, _, _ => rfl
  | .cons k0 s0 es, p, k => by
      simp only [shapeEntriesApply, Entries.lookup, SEntries.findShape]
      by_cases hk : k == k0
      · simp [hk]
      · simp [hk, lookup_shapeEntriesApply es p k]

theorem findShape_some_mem_keys {α : Type} :
    ∀ {es : SEntries α} {k : String} {s : Shape α},
      es.findShape k = some s → k ∈ es.keys
  | .nil, k, s, h => by simp [SEntries.findShape] at h
  | .cons k0 s0 es, k, s, h => by
      simp only [SEntries.findShape] at h
      by_cases hk : k == k0
      · simp only [SEntries.keys, List.mem_cons]
        exact Or.inl (eq_of_beq hk)
      · rw [if_neg hk] at h
        simp only [SEntries.keys, List.mem_cons]
        exact Or.inr (findShape_some_mem_keys h)

mutual

theorem gather_shapeApply {α : Type} :
    ∀ (S : Shape α) (p₀ : List (List α)) (ps : List (List (List α))),
      shapeWF S = true → GoodPieces p₀ ps →
      gatherMap (shapeApply S p₀) ((p₀ :: ps).map (shapeApply S))
        = some (shapeApply S (hconcat (p₀ :: ps)))
  | .stensor g, p₀, ps, _, hgood => by
      have hmapm := mapM_option_map (fun q => Val.tensor ((rowsOf q).map g)) asTensor
        (fun q => (rowsOf q).map g) (p₀ :: ps) (fun q _ => rfl)
      have hflat : ((p₀ :: ps).map (fun q => (rowsOf q).map g)).flatten
          = ((rowsOf (hconcat (p₀ :: ps))).map g) := by
        have h1 : (p₀ :: ps).map (fun q => (rowsOf q).map g)
            = ((p₀ :: ps).map rowsOf).map (List.map g) := by
          rw [List.map_map]
          rfl
        rw [h1, ← List.map_flatten, rows_hconcat p₀ ps hgood]
      simp only [shapeApply, gatherMap, hmapm, Option.map_some', hflat]
  | .snone, p₀, ps, _, _ => by
      simp [shapeApply, gatherMap]
  | .sdict es, p₀, ps, hwf, hgood => by
      rw [shapeWF] at hwf
      rw [Bool.and_eq_true, decide_eq_true_eq] at hwf
      obtain ⟨hnodup, hwfes⟩ := hwf
      have hmapm := mapM_option_map (fun q => Val.dict (shapeEntriesApply es q)) pyLen
        (fun _ => es.keys.length) (p₀ :: ps)
        (fun q _ => by simp [pyLen, shapeEntriesApply_length])
      have hall : ((p₀ :: ps).map (fun _ => es.keys.length)).all
          (fun n => n == (shapeEntriesApply es p₀).length) = true := by
        rw [List.all_eq_true]
        intro n hn
        obtain ⟨q, _, rfl⟩ := List.mem_map.mp hn
        rw [shapeEntriesApply_length]
        exact beq_self_eq_true _
      have hgath := gather_shapeEntries es es p₀ ps hwfes (fun _ _ h => h) hnodup hgood
      simp only [shapeApply, gatherMap, hmapm, hall, if_true, hgath, Option.map_some']
  | .stup fs, p₀, ps, hwf, hgood => by
      rw [shapeWF] at hwf
      have hmapm := mapM_option_map (fun q => Val.tup (shapeFieldsApply fs q)) asTup
        (fun q => (shapeFieldsApply fs q).toList) (p₀ :: ps) (fun q _ => rfl)
      have hgath := gather_shapeFields fs p₀ ps hwf hgood
      simp only [shapeApply, gatherMap, hmapm, hgath, Option.map_some']

theorem gather_shapeEntries {α : Type} :
    ∀ (esFull es : SEntries α) (p₀ : List (List α)) (ps : List (List (List α))),
      sentriesWF es = true →
      (∀ k s, es.findShape k = some s → esFull.findShape k = some s) →
      es.keys.Nodup → GoodPieces p₀ ps →
      gatherEntries (shapeEntriesApply es p₀)
        ((p₀ :: ps).map (fun q => Val.dict (shapeEntriesApply esFull q)))
        = some (shapeEntriesApply es (hconcat (p₀ :: ps)))
  | _, .nil, p₀, ps, _, _, _, _ => rfl
  | esFull, .cons k0 s0 es, p₀, ps, hwf, hfind, hnodup, hgood => by
      rw [sentriesWF, Bool.and_eq_true] at hwf
      obtain ⟨hwfs, hwfes⟩ := hwf
      rw [SEntries.keys, List.nodup_cons] at hnodup
      obtain ⟨hk0, hnodup'⟩ := hnodup
      have hfind0 : esFull.findShape k0 = some s0 := by
        apply hfind
        simp [SEntries.findShape]
      have hfind' : ∀ k s, es.findShape k = some s → esFull.findShape k = some s := by
        intro k s h
        have hkmem := findShape_some_mem_keys h
        have hkne : (k == k0) = false := by
          rw [beq_eq_false_iff_ne]
          intro h0
          rw [h0] at hkmem
          exact hk0 hkmem
        apply hfind
        rw [SEntries.findShape, hkne]
        simpa using h
      have hcol := mapM_option_map (fun q => Val.dict (shapeEntriesApply esFull q)) (getStr k0)
        (fun q => shapeApply s0 q) (p₀ :: ps)
        (fun q _ => by
          simp only [getStr, lookup_shapeEntriesApply, hfind0, Option.map_some'])
      have hrec1 := gather_shapeApply s0 p₀ ps hwfs hgood
      have hrec2 := gather_shapeEntries esFull es p₀ ps hwfes hfind' hnodup' hgood
      simp only [shapeEntriesApply, gatherEntries, hcol, hrec1, hrec2]

theorem gather_shapeFields {α : Type} :
    ∀ (fs : SFields α) (p₀ : List (List α)) (ps : List (List (List α))),
      sfieldsWF fs = true → GoodPieces p₀ ps →
      gatherFields (shapeFieldsApply fs p₀)
        ((p₀ :: ps).map (fun q => (shapeFieldsApply fs q).toList))
        = some (shapeFieldsApply fs (hconcat (p₀ :: ps)))
  | .nil, _, _, _, _ => rfl
  | .cons s fs, p₀, ps, hwf, hgood => by
      rw [sfieldsWF, Bool.and_eq_true] at hwf
      obtain ⟨hwfs, hwffs⟩ := hwf
      simp only [shapeFieldsApply, Fields.toList, gatherFields]
      have hnoempty : ((p₀ :: ps).map
          (fun q => shapeApply s q :: (shapeFieldsApply fs q).toList)).any
            List.isEmpty = false := by
        rw [List.any_eq_false]
        intro l hl
        obtain ⟨q, _, rfl⟩ := List.mem_map.mp hl
        simp
      rw [hnoempty]
      simp only [Bool.false_eq_true, if_false, List.map_map]
      have hheads : ((p₀ :: ps).map
          ((fun l => l.headD Val.vnone) ∘ fun q => shapeApply s q :: (shapeFieldsApply fs q).toList))
          = (p₀ :: ps).map (shapeApply s) := by
        apply List.map_congr_left
        intro q _
        rfl
      have hdrops : ((p₀ :: ps).map
          ((fun l => l.drop 1) ∘ fun q => shapeApply s q :: (shapeFieldsApply fs q).toList))
          = (p₀ :: ps).map (fun q => (shapeFieldsApply fs q).toList) := by
        apply List.map_congr_left
        intro q _
        rfl
      rw [hheads, hdrops, gather_shapeApply s p₀ ps hwfs hgood,
        gather_shapeFields fs p₀ ps hwffs hgood]

end

theorem check_valid_ok {α : Type} (inputs : List (List α)) (L : Nat)
    (hal : ∀ l ∈ inputs, l.length = L) (hne : inputs ≠ []) :
    check_valid (inputs.map PyInput.list) = Except.ok () := by
  obtain ⟨x, rest, rfl⟩ := List.exists_cons_of_ne_nil hne
  have hmapm := mapM_option_map (γ := Nat) PyInput.list pyInputLen List.length (x :: rest)
    (fun y _ => rfl)
  simp only [List.map_cons] at hmapm
  have hall : ((x.length :: rest.map List.length).all
      (fun n => n == (x.length :: rest.map List.length).headD 0)) = true := by
    rw [List.all_eq_true]
    intro n hn
    simp only [List.headD_cons]
    rcases List.mem_cons.mp hn with rfl | hn'
    · exact beq_self_eq_true _
    · obtain ⟨y, hy, rfl⟩ := List.mem_map.mp hn'
      rw [hal y (List.mem_cons_of_mem x hy), hal x (by simp)]
      exact beq_self_eq_true _
  simp only [check_valid, List.map_cons, List.isEmpty_cons, Bool.false_eq_true, if_false,
    hmapm, hall, if_true]

/-- C1 (amended): for every shape-driven elementwise function — one whose
output is a fixed tensor/dict/tuple/`None` structure whose tensor leaves
score each index of the zipped inputs independently — and every
non-empty list of non-empty equal-length inputs and batch size `B ≥ 1`
(hence in particular `B ∈ {1, len, len+1}`), `batch_apply` partitions the
index range into contiguous chunks of size at most `B`, applies the
function once per chunk on the slices of every input, reassembles tensor
outputs by concatenation along axis 0, dict outputs key by key, tuple
outputs field by field and keeps `None` as `None`, and the aggregate
equals the function applied once to the whole unchunked inputs. -/
theorem batch_apply_elementwise_eq_single_call {α : Type}
    (S : Shape α) (inputs : List (List α)) (B L : Nat)
    (hwf : shapeWF S = true) (hB : 0 < B) (hne : inputs ≠ [])
    (hal : ∀ l ∈ inputs, l.length = L) (hL : 0 < L) :
    batch_apply (fun slices => Except.ok (shapeApply S slices)) (inputs.map PyInput.list) B
      = Except.ok (shapeApply S inputs) := by
  have hcv := check_valid_ok inputs L hal hne
  obtain ⟨x, rest, rfl⟩ := List.exists_cons_of_ne_nil hne
  have hxlen : x.length = L := hal x (by simp)
  have hBne : ¬ (B = 0) := by omega
  have hslice : ∀ s f, ((x :: rest).map PyInput.list).map (pySlice s f)
      = (x :: rest).map (fun l => (l.take f).drop s) := by
    intro s f
    rw [List.map_map]
    rfl
  have hres : (List.range' 0 ((x.length + B - 1) / B) B).mapM
      (fun start => (Except.ok
        (shapeApply S ((x :: rest).map
          (fun l => (l.take (min x.length (start + B))).drop start))) : Except String Val))
      = Except.ok ((List.range' 0 ((x.length + B - 1) / B) B).map
          (fun start => shapeApply S ((x :: rest).map
            (fun l => (l.take (min x.length (start + B))).drop start)))) :=
    mapM_except_ok _ _
  have hchunk : (List.range' 0 ((x.length + B - 1) / B) B).map
      (fun start => (x :: rest).map
        (fun l => (l.take (min x.length (start + B))).drop start))
      = chunksOf B (x :: rest) := by
    rw [hxlen]
    exact slices_eq_chunksOf B L (x :: rest) hB (by simp) hal
  have hstop : ¬ (B = 0 ∨ (((x :: rest) : List (List α)).headD []).isEmpty) := by
    rw [List.headD_cons, not_or, List.isEmpty_iff]
    refine ⟨hBne, ?_⟩
    intro h0
    rw [h0] at hxlen
    simp at hxlen
    omega
  have hcons := chunksOf_eq_cons hstop
  have hgood : GoodPieces ((x :: rest).map (List.take B)) (chunksOf B ((x :: rest).map (List.drop B))) := by
    have hshape := chunksOf_shape B L (x :: rest) hal
    rw [hcons] at hshape
    refine ⟨?_, ?_, ?_⟩
    · intro q hq
      have h1 := (hshape q (List.mem_cons_of_mem _ hq)).1
      have h2 := (hshape ((x :: rest).map (List.take B)) (by simp)).1
      rw [h1, ← h2]
    · exact (hshape ((x :: rest).map (List.take B)) (by simp)).2
    · intro q hq
      exact (hshape q (List.mem_cons_of_mem _ hq)).2
  have hgather : pyGather ((chunksOf B (x :: rest)).map (shapeApply S))
      = some (shapeApply S (x :: rest)) := by
    rw [hcons, List.map_cons, pyGather, ← List.map_cons (shapeApply S)]
    rw [gather_shapeApply S _ _ hwf hgood, ← hcons,
      hconcat_chunksOf B L (x :: rest) hB hL (by simp) hal]
  have hchunk2 : (List.range' 0 ((x.length + B - 1) / B) B).map
      (fun start => shapeApply S ((x :: rest).map
        (fun l => (l.take (min x.length (start + B))).drop start)))
      = (chunksOf B (x :: rest)).map (shapeApply S) := by
    rw [← hchunk, List.map_map]
    rfl
  have hh : (List.map PyInput.list (x :: rest)).head? = some (PyInput.list x) := by simp
  simp only [batch_apply, hcv]
  simp only [hh, pyInputLen, if_neg hBne, hslice, hres, hchunk2, hgather]

theorem composeStep_fold_fst {ι κ : Type} (images : ι) (labels : κ) :
    ∀ (l : List ((ι → κ → LossOutput) × ℚ)) (acc : ℚ × List (String × ℚ)),
      (l.foldl (composeStep images labels) acc).1
        = acc.1 + (l.map (fun fw => fw.2 * (fw.1 images labels).val)).sum
  | [], acc => by simp
  | fw :: l, acc => by
      rw [List.foldl_cons, composeStep_fold_fst images labels l]
      simp only [composeStep, List.map_cons, List.sum_cons]
      ring

theorem composeStep_fold_snd {ι κ : Type} (images : ι) (labels : κ) :
    ∀ (l : List ((ι → κ → LossOutput) × ℚ)) (acc : ℚ × List (String × ℚ)),
      (l.foldl (composeStep images labels) acc).2
        = (l.map (fun fw => (fw.1 images labels).entries)).flatten.foldl
            (fun d kv => odInsert d kv.1 kv.2) acc.2
  | [], _ => rfl
  | fw :: l, acc => by
      rw [List.foldl_cons, composeStep_fold_snd images labels l, List.map_cons,
        List.flatten_cons, List.foldl_append]
      rfl

theorem any_key_eq_false {d : List (String × ℚ)} {k : String}
    (h : ∀ q ∈ d, q.1 ≠ k) : (d.any (fun p => p.1 == k)) = false := by
  rw [List.any_eq_false]
  intro p hp
  rw [Bool.not_eq_true, beq_eq_false_iff_ne]
  exact h p hp

theorem odInsert_fresh (d : List (String × ℚ)) (k : String) (v : ℚ)
    (h : ∀ q ∈ d, q.1 ≠ k) : odInsert d k v = d ++ [(k, v)] := by
  unfold odInsert
  rw [if_neg]
  rw [any_key_eq_false h]
  simp

theorem foldl_odInsert_fresh :
    ∀ (es d : List (String × ℚ)), (∀ p ∈ es, ∀ q ∈ d, p.1 ≠ q.1) →
      (es.map Prod.fst).Nodup →
      es.foldl (fun d kv => odInsert d kv.1 kv.2) d = d ++ es
  | [], d, _, _ => by simp
  | (k, v) :: es, d, hdisj, hnodup => by
      rw [List.map_cons, List.nodup_cons] at hnodup
      obtain ⟨hk, hnodup'⟩ := hnodup
      rw [List.foldl_cons,
        odInsert_fresh d k v (fun q hq => (hdisj (k, v) (by simp) q hq).symm)]
      rw [foldl_odInsert_fresh es (d ++ [(k, v)])
        (by
          intro p hp q hq
          rcases List.mem_append.mp hq with hq' | hq'
          · exact hdisj p (List.mem_cons_of_mem _ hp) q hq'
          · have : q = (k, v) := by simpa using hq'
            rw [this]
            intro h0
            exact hk (h0 ▸ List.mem_map_of_mem Prod.fst hp))
        hnodup']
      simp

theorem lookup_map_replace :
    ∀ (d : List (String × ℚ)) (k : String) (v : ℚ),
      d.any (fun p => p.1 == k) = true →
      (d.map (fun p => if p.1 == k then (k, v) else p)).lookup k = some v
  | [], _, _, h => by simp at h
  | (k0, v0) :: d, k, v, h => by
      by_cases hk : (k0 == k) = true
      · simp only [List.map_cons, if_pos hk, List.lookup_cons, beq_self_eq_true]
      · have hne : k0 ≠ k := beq_eq_false_iff_ne.mp (by simpa using hk)
        have hkk0 : (k == k0) = false := beq_eq_false_iff_ne.mpr (Ne.symm hne)
        have h' : d.any (fun p => p.1 == k) = true := by
          rcases List.any_eq_true.mp h with ⟨p, hp, hpk⟩
          rcases List.mem_cons.mp hp with rfl | hp'
          · exact absurd hpk (by simpa using hk)
          · exact List.any_eq_true.mpr ⟨p, hp', hpk⟩
        simp only [List.map_cons, if_neg hk, List.lookup_cons, hkk0]
        exact lookup_map_replace d k v h'

theorem lookup_odInsert_self (d : List (String × ℚ)) (k : String) (v : ℚ) :
    (odInsert d k v).lookup k = some v := by
  unfold odInsert
  split
  · rename_i h
    exact lookup_map_replace d k v h
  · rename_i h
    rw [Bool.not_eq_true, List.any_eq_false] at h
    induction d with
    | nil => simp [List.lookup_cons]
    | cons q d ih =>
        have hq : ¬ (q.1 == k) = true := h q (by simp)
        have hkq : (k == q.1) = false :=
          beq_eq_false_iff_ne.mpr (Ne.symm (beq_eq_false_iff_ne.mp (by simpa using hq)))
        rw [List.cons_append]
        cases q with
        | mk k0 v0 =>
            rw [List.lookup_cons]
            simp only [hkq]
            exact ih (fun p hp => h p (List.mem_cons_of_mem _ hp))

theorem map_replace_of_fresh (d : List (String × ℚ)) (k : String) (v : ℚ)
    (h : ∀ q ∈ d, q.1 ≠ k) :
    d.map (fun p => if p.1 == k then (k, v) else p) = d := by
  have : ∀ p ∈ d, (fun p => if p.1 == k then (k, v) else p) p = p := by
    intro p hp
    show (if (p.1 == k) = true then (k, v) else p) = p
    rw [beq_eq_false_iff_ne.mpr (h p hp)]
    simp
  rw [List.map_congr_left this]
  simp

theorem lookup_of_mem_nodup :
    ∀ (es : List (String × ℚ)) (kv : String × ℚ), kv ∈ es →
      (es.map Prod.fst).Nodup → es.lookup kv.1 = some kv.2
  | [], kv, hmem, _ => by simp at hmem
  | (k0, v0) :: es, (k1, v1), hmem, hnodup => by
      rw [List.map_cons, List.nodup_cons] at hnodup
      obtain ⟨hk0, hnodup'⟩ := hnodup
      rcases List.mem_cons.mp hmem with heq | hmem'
      · injection heq with ha hb
        subst ha
        subst hb
        simp [List.lookup_cons]
      · have hne : k1 ≠ k0 := by
          intro h0
          apply hk0
          have hmemk : k1 ∈ es.map Prod.fst := List.mem_map_of_mem Prod.fst hmem'
          rw [h0] at hmemk
          exact hmemk
        rw [List.lookup_cons]
        simp only [beq_eq_false_iff_ne.mpr hne]
        exact lookup_of_mem_nodup es (k1, v1) hmem' hnodup'

theorem mapM_option_eq_none_of_mem {α β : Type} (f : α → Option β) :
    ∀ {l : List α} {x : α}, x ∈ l → f x = none → l.mapM f = none
  | [], x, hmem, _ => by simp at hmem
  | a :: l, x, hmem, hfx => by
      rw [List.mapM_cons]
      rcases List.mem_cons.mp hmem with rfl | hmem'
      · simp [hfx]
      · rw [mapM_option_eq_none_of_mem f hmem' hfx]
        cases hfa : f a <;> simp [hfa]

theorem mapM_option_eq_some_mem {α β : Type} (f : α → Option β) :
    ∀ {l : List α} {ys : List β}, l.mapM f = some ys → ∀ x ∈ l, ∃ y ∈ ys, f x = some y
  | [], _, _, x, hx => by simp at hx
  | a :: l, ys, h, x, hx => by
      rw [List.mapM_cons] at h
      cases hfa : f a with
      | none => rw [hfa] at h; simp at h
      | some b =>
          rw [hfa] at h
          cases hml : l.mapM f with
          | none => rw [hml] at h; simp at h
          | some ys' =>
              rw [hml] at h
              simp at h
              subst h
              rcases List.mem_cons.mp hx with rfl | hx'
              · exact ⟨b, by simp, hfa⟩
              · obtain ⟨y, hy, hfy⟩ := mapM_option_eq_some_mem f hml x hx'
                exact ⟨y, by simp [hy], hfy⟩

/-! ## Claim theorems -/

/-- C5: for every configuration accepted by attacker construction, after
`_preprocess_config` the invariant `final_num ≤ optimize_num ≤ initial_num`
holds; in particular, for `initial_num=5, optimize_num=10, final_num=20`
preprocessing succeeds, emits two warnings, and leaves all three counts
equal to 20. -/
theorem preprocess_config_count_invariant :
    (∀ (cfg cfg' : ImageClassifierAttackConfig) (ws : List String),
      preprocess_config cfg = Except.ok (cfg', ws) →
      ∃ i o f, cfg'.initial_num = some i ∧ cfg'.optimize_num = some o ∧
        cfg'.final_num = some f ∧ f ≤ o ∧ o ≤ i)
    ∧ (∀ cfg : ImageClassifierAttackConfig,
      cfg.initial_num = some 5 → cfg.optimize_num = some 10 → cfg.final_num = some 20 →
      cfg.sample_latents_fn.isSome = true → cfg.optimize_fn.isSome = true →
      ((cfg.save_optimized_images || cfg.save_final_images) && strFalsy cfg.save_dir) = false →
      ∃ cfg' ws, preprocess_config cfg = Except.ok (cfg', ws) ∧
        cfg'.initial_num = some 20 ∧ cfg'.optimize_num = some 20 ∧
        cfg'.final_num = some 20 ∧ ws.length = 2) := by
  constructor
  · intro cfg cfg' ws h
    simp only [preprocess_config] at h
    split at h
    · exact absurd h (by simp)
    split at h
    · exact absurd h (by simp)
    split at h
    · exact absurd h (by simp)
    split at h
    · exact absurd h (by simp)
    rename_i finalNum hfn
    split at h <;> split at h <;>
      (rw [Except.ok.injEq, Prod.mk.injEq] at h
       obtain ⟨h1, _⟩ := h
       subst h1
       exact ⟨_, _, finalNum, rfl, rfl, hfn, by omega, by omega⟩)
  · intro cfg h1 h2 h3 h4 h5 h6
    have hs1 : cfg.sample_latents_fn.isNone = false := by
      rw [Option.isNone_eq_false_iff, Option.isSome_iff_ne_none] at *
      exact h4
    have hs2 : cfg.optimize_fn.isNone = false := by
      rw [Option.isNone_eq_false_iff, Option.isSome_iff_ne_none] at *
      exact h5
    let cfg2 : ImageClassifierAttackConfig :=
      { cfg with
          initial_num := some 20
          optimize_num := some 20
          final_num := some 20
          initial_select_batch_size :=
            some (cfg.initial_select_batch_size.getD cfg.optimize_batch_size)
          final_select_batch_size := cfg.final_select_batch_size }
    refine ⟨cfg2,
      ["the final number is larger than the optimize number, automatically set the latter to the fronter",
       "the optimize number is larger than the initial number, automatically set the latter to the fronter"],
      ?_, rfl, rfl, rfl, rfl⟩
    simp only [preprocess_config, h6, Bool.false_eq_true, if_false, hs1, hs2, h3, h1, h2,
      Option.getD_some]
    norm_num

/-- Witness for C5 at the concrete configuration `exampleConfig`
(`initial_num=5, optimize_num=10, final_num=20`). -/
theorem preprocess_config_count_invariant_witness :
    ∃ cfg' ws, preprocess_config exampleConfig = Except.ok (cfg', ws) ∧
      cfg'.initial_num = some 20 ∧ cfg'.optimize_num = some 20 ∧
      cfg'.final_num = some 20 ∧ ws.length = 2 :=
  preprocess_config_count_invariant.2 exampleConfig rfl rfl rfl rfl rfl rfl

/-- C8: a save flag without `save_dir`, or a missing `sample_latents_fn`,
`optimize_fn` or `final_num`, makes `_preprocess_config` (run during
attacker construction, before any attack phase) raise a configuration
error. -/
theorem preprocess_config_rejects_bad_config
    (cfg : ImageClassifierAttackConfig)
    (h : ((cfg.save_optimized_images || cfg.save_final_images) = true ∧ cfg.save_dir = none)
      ∨ cfg.sample_latents_fn = none ∨ cfg.optimize_fn = none ∨ cfg.final_num = none) :
    ∃ msg, preprocess_config cfg = Except.error msg := by
  simp only [preprocess_config]
  by_cases h1 : ((cfg.save_optimized_images || cfg.save_final_images)
      && strFalsy cfg.save_dir) = true
  · rw [if_pos h1]
    exact ⟨_, rfl⟩
  · rw [if_neg h1]
    by_cases h2 : cfg.sample_latents_fn.isNone = true
    · rw [if_pos h2]
      exact ⟨_, rfl⟩
    · rw [if_neg h2]
      by_cases h3 : cfg.optimize_fn.isNone = true
      · rw [if_pos h3]
        exact ⟨_, rfl⟩
      · rw [if_neg h3]
        rcases h with ⟨hflag, hdir⟩ | hfn | hfn | hfin
        · exact absurd (by rw [hflag, hdir]; rfl) h1
        · exact absurd (by rw [hfn]; rfl) h2
        · exact absurd (by rw [hfn]; rfl) h3
        · rw [hfin]
          exact ⟨_, rfl⟩

/-- Witness for C8: `exampleBadConfig` requests optimized-image saving
with no save directory and is rejected. -/
theorem preprocess_config_rejects_bad_config_witness :
    ∃ msg, preprocess_config exampleBadConfig = Except.error msg :=
  preprocess_config_rejects_bad_config exampleBadConfig (Or.inl ⟨rfl, rfl⟩)

/-- C2 (code bug): `initial_latents` with a score function never returns a
per-label top-`select_num` selection: after scoring, source line 124 runs
`for i in range(labels)` on the label list, which raises `TypeError`.  The
theorem evaluates the embedded code at the scenario's failing input
(two candidates for targets `[3, 7]`, scores `[0.1, 0.9]`,
`select_num = 1`) and at a second input whose label count differs from the
sample count, where scoring itself already fails the length check. -/
theorem initial_latents_scored_raises :
    initial_latents (fun n => (List.range n).map (fun i => (i : ℚ))) 1 2 1 [3, 7]
        (some (fun lat _ => Val.tensor (lat.map (fun x => x / 10 + 1 / 10))))
      = Except.error "TypeError: list object cannot be interpreted as an integer"
    ∧ initial_latents (fun n => (List.range n).map (fun i => (i : ℚ))) 1 3 1 [3, 7]
        (some (fun lat _ => Val.tensor (lat.map (fun x => x / 10 + 1 / 10))))
      = Except.error "lengths of all inputs are not the same" := by
  constructor <;> rfl

/-- C3 (code bug): `initial_latents` with `latent_score_fn = None` and
`sample_num = select_num` never returns the sampler's raw output: the
early branch has no `return`, so the code falls through, re-samples, and
dies inside `batch_apply` (length mismatch, or calling `None` as the
score function).  The theorem shows the embedded code returns an error
for every sampler, batch size, count and label list with no score
function. -/
theorem initial_latents_scoreless_raises
    (sample_latents_fn : Nat → List ℚ) (batch_size n : Nat) (labels : List ℚ) :
    ∃ msg, initial_latents sample_latents_fn batch_size n n labels none
      = Except.error msg := by
  simp only [initial_latents]
  cases hba : batch_apply
      (fun _ => Except.error "TypeError: NoneType object is not callable")
      [PyInput.list (sample_latents_fn (if n < n then n else n)),
        PyInput.list labels] batch_size with
  | error e => exact ⟨e, rfl⟩
  | ok v => exact ⟨_, rfl⟩

/-- C4 (code bug): `final_selection` with `final_num == len(images)` (or
with no score function) runs `return images`, handing back the images
tensor alone rather than the `(images, labels)` pair that the caller
`attack()` unpacks; the warning is emitted exactly when the counts differ
with no score function.  Evaluated at the failing inputs. -/
theorem final_selection_returns_images_only :
    final_selection 2 3 [1, 2, 3] [5, 5, 6] none
      = ([], Except.ok (FinalSelectionResult.single [1, 2, 3]))
    ∧ final_selection 2 5 [1, 2, 3] [5, 5, 6] none
      = (["no score function but final num is not equal to the number of latents"],
         Except.ok (FinalSelectionResult.single [1, 2, 3]))
    ∧ (∀ labs : List ℚ,
        FinalSelectionResult.single [1, 2, 3] ≠ FinalSelectionResult.pair [1, 2, 3] labs) := by
  refine ⟨rfl, rfl, ?_⟩
  intro labs h
  cases h

/-- C6 (code bug): `concat_tensor_labels` never produces the flattened
(stacked tensor, label sequence) pair: iterating the dict yields bare
keys, so the tuple unpacking raises `TypeError` on any non-empty
candidate set, and an empty set reaches `torch.cat([])`, which raises
`RuntimeError` (and the final statement is `raise`, not `return`).
Evaluated at a one-label candidate set and at the empty set. -/
theorem concat_tensor_labels_always_raises :
    concat_tensor_labels [(3, [1, 2])]
      = Except.error "TypeError: cannot unpack non-iterable int object"
    ∧ concat_tensor_labels []
      = Except.error "RuntimeError: torch.cat expected a non-empty list of Tensors" :=
  ⟨rfl, rfl⟩

/-- C10: `print_split_line` with `content = None` prints the bare dash
line and then unconditionally evaluates `len(content)`, raising
`TypeError`, so the call never returns normally; consequently the closing
separator of `_evaluation`'s report always fails. -/
theorem print_split_line_none_raises :
    (∀ length : Nat,
      (print_split_line none length).1 = [dashLine length]
      ∧ (print_split_line none length).2
          = Except.error "TypeError: object of type NoneType has no len")
    ∧ (∀ (ι κ : Type) (metrics : List (ι → κ → List (String × ℚ)))
        (images : ι) (labels : κ) (description : String),
        (evaluation metrics images labels description).2
          = Except.error "TypeError: object of type NoneType has no len") := by
  constructor
  · intro length
    exact ⟨rfl, rfl⟩
  · intro ι κ metrics images labels description
    rfl

/-- C7: `ComposeImageLoss.forward` returns the weighted sum of the
sub-loss scalars as the compose loss; the return dict's `compose loss`
entry equals that sum, and (when the sub-loss diagnostic keys are
pairwise distinct and none is named `compose loss`) every sub-loss entry
is present under its own key; in particular with weights `[1, 2]` and
sub-losses `3` and `4` the compose loss is `11`. -/
theorem ComposeImageLoss_forward_weighted_sum :
    (∀ (ι κ : Type) (fs : List (ι → κ → LossOutput)) (ws : List ℚ)
        (images : ι) (labels : κ),
      ((ComposeImageLoss.forward ⟨fs, ws⟩ images labels).1
        = ((fs.zip ws).map (fun fw => fw.2 * (fw.1 images labels).val)).sum)
      ∧ ((ComposeImageLoss.forward ⟨fs, ws⟩ images labels).2.lookup "compose loss"
        = some ((ComposeImageLoss.forward ⟨fs, ws⟩ images labels).1))
      ∧ (((((fs.zip ws).map (fun fw => (fw.1 images labels).entries)).flatten.map
              Prod.fst).Nodup
          ∧ "compose loss" ∉
              ((fs.zip ws).map (fun fw => (fw.1 images labels).entries)).flatten.map
                Prod.fst) →
        ∀ kv ∈ ((fs.zip ws).map (fun fw => (fw.1 images labels).entries)).flatten,
          (ComposeImageLoss.forward ⟨fs, ws⟩ images labels).2.lookup kv.1 = some kv.2))
    ∧ ((ComposeImageLoss.forward
        (⟨[fun _ _ => LossOutput.withDict 3 [("a loss", 3)],
           fun _ _ => LossOutput.withDict 4 [("b loss", 4)]],
          [1, 2]⟩ : ComposeImageLoss Unit Unit) () ()).1 = 11
      ∧ (ComposeImageLoss.forward
        (⟨[fun _ _ => LossOutput.withDict 3 [("a loss", 3)],
           fun _ _ => LossOutput.withDict 4 [("b loss", 4)]],
          [1, 2]⟩ : ComposeImageLoss Unit Unit) () ()).2.lookup "compose loss" = some 11
      ∧ (ComposeImageLoss.forward
        (⟨[fun _ _ => LossOutput.withDict 3 [("a loss", 3)],
           fun _ _ => LossOutput.withDict 4 [("b loss", 4)]],
          [1, 2]⟩ : ComposeImageLoss Unit Unit) () ()).2.lookup "a loss" = some 3
      ∧ (ComposeImageLoss.forward
        (⟨[fun _ _ => LossOutput.withDict 3 [("a loss", 3)],
           fun _ _ => LossOutput.withDict 4 [("b loss", 4)]],
          [1, 2]⟩ : ComposeImageLoss Unit Unit) () ()).2.lookup "b loss" = some 4) := by
  constructor
  · intro ι κ fs ws images labels
    refine ⟨?_, ?_, ?_⟩
    · simp only [ComposeImageLoss.forward]
      rw [composeStep_fold_fst]
      simp
    · simp only [ComposeImageLoss.forward]
      exact lookup_odInsert_self _ _ _
    · rintro ⟨hnd, hnm⟩ kv hkv
      have hfresh : ∀ p ∈ ((fs.zip ws).map
          (fun fw => (fw.1 images labels).entries)).flatten, p.1 ≠ "compose loss" := by
        intro p hp h0
        exact hnm (h0 ▸ List.mem_map_of_mem Prod.fst hp)
      have hdict : ((fs.zip ws).foldl (composeStep images labels)
          (0, [("compose loss", 0)])).2
          = ("compose loss", 0) ::
            ((fs.zip ws).map (fun fw => (fw.1 images labels).entries)).flatten := by
        rw [composeStep_fold_snd]
        rw [foldl_odInsert_fresh _ _
          (by
            intro p hp q hq
            have : q = (("compose loss" : String), (0 : ℚ)) := by simpa using hq
            rw [this]
            exact hfresh p hp)
          hnd]
        simp
      have hkv1 : kv.1 ≠ "compose loss" := hfresh kv hkv
      simp only [ComposeImageLoss.forward, hdict]
      unfold odInsert
      rw [if_pos (by simp)]
      rw [List.map_cons, if_pos (by simp)]
      rw [map_replace_of_fresh _ _ _ hfresh]
      rw [List.lookup_cons]
      simp only [beq_eq_false_iff_ne.mpr hkv1]
      exact lookup_of_mem_nodup _ kv hkv hnd
  · refine ⟨?_, ?_, ?_, ?_⟩ <;>
      norm_num [ComposeImageLoss.forward, composeStep, odInsert, LossOutput.val,
        LossOutput.entries, List.lookup] <;>
      decide

/-- Witness for C7: the general theorem applied at the two concrete
sub-losses of the scenario, discharging the distinct-keys hypothesis
there. -/
theorem ComposeImageLoss_forward_weighted_sum_witness :
    (ComposeImageLoss.forward
      (⟨[fun _ _ => LossOutput.withDict 3 [("a loss", 3)],
         fun _ _ => LossOutput.withDict 4 [("b loss", 4)]],
        [1, 2]⟩ : ComposeImageLoss Unit Unit) () ()).2.lookup "a loss" = some 3 :=
  (ComposeImageLoss_forward_weighted_sum.1 Unit Unit
      [fun _ _ => LossOutput.withDict 3 [("a loss", 3)],
       fun _ _ => LossOutput.withDict 4 [("b loss", 4)]]
      [1, 2] () ()).2.2 (by decide) ("a loss", 3) (by decide)

/-- C9: when two inputs of `batch_apply` have differing lengths, or some
input supports no `len`, `_check_valid` raises the length-mismatch /
missing-`len` error before `fn` is invoked on any chunk — the result is
an error and does not depend on `fn` at all. -/
theorem batch_apply_mismatched_inputs {α : Type}
    (fn fn' : List (List α) → Except String Val)
    (inputs : List (PyInput α)) (B : Nat)
    (h : (∃ inp ∈ inputs, inp = PyInput.nolen)
      ∨ ∃ a ∈ inputs, ∃ b ∈ inputs, pyInputLen a ≠ pyInputLen b) :
    (∃ msg, batch_apply fn inputs B = Except.error msg)
    ∧ batch_apply fn inputs B = batch_apply fn' inputs B := by
  have hne : ¬ (inputs.isEmpty = true) := by
    rcases h with ⟨inp, hmem, _⟩ | ⟨a, ha, _, _, _⟩
    · intro hh
      rw [List.isEmpty_iff] at hh
      subst hh
      simp at hmem
    · intro hh
      rw [List.isEmpty_iff] at hh
      subst hh
      simp at ha
  have hcv : ∃ msg, check_valid inputs = Except.error msg := by
    rcases h with ⟨inp, hmem, rfl⟩ | ⟨a, ha, b, hb, hab⟩
    · refine ⟨"some inputs have no attr `len`", ?_⟩
      simp only [check_valid, if_neg hne,
        mapM_option_eq_none_of_mem pyInputLen hmem rfl]
    · cases hm : inputs.mapM pyInputLen with
      | none =>
          refine ⟨"some inputs have no attr `len`", ?_⟩
          simp only [check_valid, if_neg hne, hm]
      | some lens =>
          refine ⟨"lengths of all inputs are not the same", ?_⟩
          have hallf : (lens.all (fun n => n == lens.headD 0)) = false := by
            by_contra hc
            rw [Bool.not_eq_false, List.all_eq_true] at hc
            obtain ⟨la, hla, hfa⟩ := mapM_option_eq_some_mem pyInputLen hm a ha
            obtain ⟨lb, hlb, hfb⟩ := mapM_option_eq_some_mem pyInputLen hm b hb
            have h1 : la = lens.headD 0 := by simpa using hc la hla
            have h2 : lb = lens.headD 0 := by simpa using hc lb hlb
            apply hab
            rw [hfa, hfb, h1, h2]
          simp only [check_valid, if_neg hne, hm, hallf, Bool.false_eq_true, if_false]
  obtain ⟨msg, hmsg⟩ := hcv
  refine ⟨⟨msg, ?_⟩, ?_⟩ <;> simp only [batch_apply, hmsg]

/-- Witness for C9 at two concrete inputs of lengths 1 and 2. -/
theorem batch_apply_mismatched_inputs_witness :
    ((∃ inp ∈ ([PyInput.list [1], PyInput.list [1, 2]] : List (PyInput ℚ)),
        inp = PyInput.nolen)
      ∨ ∃ a ∈ ([PyInput.list [1], PyInput.list [1, 2]] : List (PyInput ℚ)),
          ∃ b ∈ ([PyInput.list [1], PyInput.list [1, 2]] : List (PyInput ℚ)),
            pyInputLen a ≠ pyInputLen b)
    ∧ ((∃ msg, batch_apply (fun _ => Except.ok Val.vnone)
          [PyInput.list [1], PyInput.list [1, 2]] 1 = Except.error msg)
      ∧ batch_apply (fun _ => Except.ok Val.vnone)
          [PyInput.list [1], PyInput.list [1, 2]] 1
        = batch_apply (fun _ => Except.error "never called")
            [PyInput.list [1], PyInput.list [1, 2]] 1) :=
  ⟨by decide,
   batch_apply_mismatched_inputs (fun _ => Except.ok Val.vnone)
     (fun _ => Except.error "never called")
     [PyInput.list [1], PyInput.list [1, 2]] 1 (by decide)⟩

/-- Counterexample to C1 as stated: for the function that looks at the
length of its slice (returning `[9]` on the full two-element input and
`[0]` on anything else), `batch_apply` with `B = 1` returns the
concatenation `[0, 0]` of the per-chunk outputs, which differs from the
single full-input call `[9]`, so the equality cannot hold for every
function. -/
theorem batch_apply_single_call_counterexample :
    batch_apply
        (fun slices => Except.ok
          (Val.tensor (if (slices.headD []).length == 2 then [9] else [0])))
        [PyInput.list ([5, 5] : List ℚ)] 1
      = Except.ok (Val.tensor [0, 0])
    ∧ ((fun slices => Except.ok
          (Val.tensor (if (slices.headD []).length == 2 then [9] else [0]))) :
        List (List ℚ) → Except String Val)
        [([5, 5] : List ℚ)]
      = Except.ok (Val.tensor [9])
    ∧ (Except.ok (Val.tensor ([0, 0] : List ℚ)) : Except String Val)
      ≠ Except.ok (Val.tensor [9]) := by
  refine ⟨rfl, rfl, ?_⟩
  intro h
  rw [Except.ok.injEq, Val.tensor.injEq] at h
  simp at h

/-- Witness for C1 (amended) at `exampleShape` over the inputs
`[[1, 2, 3], [4, 5, 6]]` with `B = 2`. -/
theorem batch_apply_elementwise_eq_single_call_witness :
    shapeWF exampleShape = true
    ∧ (0 : Nat) < 2
    ∧ ([[1, 2, 3], [4, 5, 6]] : List (List ℚ)) ≠ []
    ∧ (∀ l ∈ ([[1, 2, 3], [4, 5, 6]] : List (List ℚ)), l.length = 3)
    ∧ (0 : Nat) < 3
    ∧ batch_apply (fun slices => Except.ok (shapeApply exampleShape slices))
        (([[1, 2, 3], [4, 5, 6]] : List (List ℚ)).map PyInput.list) 2
      = Except.ok (shapeApply exampleShape [[1, 2, 3], [4, 5, 6]]) :=
  ⟨by decide, by decide, by decide, by decide, by decide,
   batch_apply_elementwise_eq_single_call exampleShape [[1, 2, 3], [4, 5, 6]] 2 3
     (by decide) (by decide) (by decide) (by decide) (by decide)⟩

end MIAB
